import Mathlib

/-!
Verification of the Component agent runtime (SujalChoudhari/Component).

The development shallowly embeds the parts of the repository the claims
concern:

* `src/manager.py` — `ComponentManager._discover_component_classes`,
  `load_component`, `use_component` (registry discovery, loading, tool use);
* `src/ai_manager.py` — `AIComponentManager._call_tool` and
  `_apply_rate_limit`;
* `src/gemini_chat_agent.py` — `GeminiChatAgent._apply_rate_limit` and
  `continue_autonomously` (one conversation step with streamed chunks,
  tool execution, chained follow-up exchanges and rollback on client error).

Python dicts whose keys are inserted at most once are embedded as
association lists; wall-clock time is embedded as `ℚ`; a streamed backend
response is a list of chunks followed by an optional raised transport error;
turn history is an explicit list threaded through the step.
-/

namespace CompAgent

/-! ## Registry discovery (`manager.py`, `_discover_component_classes`)

A scanned source unit (module) is a base filename plus the members
`inspect.getmembers` yields, in iteration order.  For each member the code
records only whether it is a class that is a strict subclass of
`BaseComponent` (`inspect.isclass(obj) and issubclass(obj, BaseComponent)
and obj is not BaseComponent`); the registered key is the member's declared
class name `obj.__name__`. -/

structure Mem where
  clsName : String
  isStrictComponentSubclass : Bool
  deriving DecidableEq

structure Mod where
  fileBase : String
  members : List Mem
  deriving DecidableEq

/-- The `_available_component_classes` dict, as an association list in
insertion order (the code checks membership before every insert, so keys
are unique and never overwritten). -/
abbrev Registry := List (String × Mem)

def lookupReg : Registry → String → Option Mem
  | [], _ => none
  | p :: rest, n => if p.1 = n then some p.2 else lookupReg rest n

/-- One iteration of the member loop of `_discover_component_classes`:
a strict `BaseComponent` subclass is registered under its class name unless
that name is already present, in which case it is skipped with a warning. -/
def discoverMember (reg : Registry) (m : Mem) : Registry :=
  if m.isStrictComponentSubclass then
    if (lookupReg reg m.clsName).isSome then reg
    else reg ++ [(m.clsName, m)]
  else reg

/-- Embeds `_discover_component_classes(module)`: fold the member loop over the
module's members. -/
def discoverComponentClasses (reg : Registry) (mod : Mod) : Registry :=
  mod.members.foldl discoverMember reg

/-! ## Component loading (`manager.py`, `load_component`)

A component class carries an identity and whether its `onload` hook raises;
an instance pairs the class with the identity of the constructed object.
`onloadLog` records every invocation of an `onload` hook, raising or not. -/

structure CompCls where
  clsId : Nat
  onloadFails : Bool
  deriving DecidableEq

structure CompInst where
  cls : CompCls
  instId : Nat
  deriving DecidableEq

structure MgrSt where
  available : List (String × CompCls)
  loaded : List (String × CompInst)
  nextId : Nat
  onloadLog : List String
  deriving DecidableEq

def lookupCls : List (String × CompCls) → String → Option CompCls
  | [], _ => none
  | p :: rest, n => if p.1 = n then some p.2 else lookupCls rest n

def lookupInst : List (String × CompInst) → String → Option CompInst
  | [], _ => none
  | p :: rest, n => if p.1 = n then some p.2 else lookupInst rest n

/-- Embeds `load_component(name)`: return the existing instance when the name is
already loaded (without touching `onload`); otherwise instantiate the
available class and invoke `onload`, registering the instance only when
`onload` does not raise. -/
def loadComponent (s : MgrSt) (n : String) : MgrSt × Option CompInst :=
  match lookupInst s.loaded n with
  | some inst => (s, some inst)
  | none =>
    match lookupCls s.available n with
    | none => (s, none)
    | some cls =>
      let inst : CompInst := ⟨cls, s.nextId⟩
      if cls.onloadFails then
        ({ s with nextId := s.nextId + 1, onloadLog := s.onloadLog ++ [n] }, none)
      else
        ({ s with loaded := s.loaded ++ [(n, inst)],
                  nextId := s.nextId + 1,
                  onloadLog := s.onloadLog ++ [n] }, some inst)

/-! ## `use_component` (`manager.py`)

A manager-level component's `use` either raises (`Except.error`) or returns
a value that may itself legitimately be `None` (`Option`). -/

structure MComponent where
  useFn : List String → Except String (Option String)

/-- Embeds `use_component(name, *args)`: `None` when the name is not loaded, the
result of `use` when it returns, and `None` again when `use` raises (the
exception is caught and logged at the registry boundary). -/
def useComponent (loaded : String → Option MComponent) (n : String)
    (args : List String) : Option String :=
  match loaded n with
  | none => none
  | some c =>
    match c.useFn args with
    | Except.ok v => v
    | Except.error _ => none

/-! ## One conversation step (`gemini_chat_agent.py`, `continue_autonomously`)

The step is embedded as a pure function over an explicit state: the turn
history (`chat_history`), the buffered pending model text
(`model_response_parts`), the queue of scripted backend responses (one per
`generate_content_stream` call; an exhausted queue behaves as a transport
failure), and an event trace recording each rate-limit acquisition, each
outbound request, and each tool execution.

A streamed response is a list of chunks — each carrying either text or a
list of function calls — followed by a flag saying whether the stream
raises a client error after yielding those chunks.  In the source, text
parts are buffered locally and committed as a single model turn only when
the whole step succeeds; tool-result turns are appended with role
`"user"` (line 137), which is why the error handler's rollback has to
compare the last turn's text against the triggering message. -/

inductive Role where
  | user
  | model
  deriving DecidableEq

structure FCall where
  name : String
  args : String
  deriving DecidableEq

inductive Part where
  | text (s : String)
  | call (fc : FCall)
  deriving DecidableEq

structure Turn where
  role : Role
  parts : List Part
  deriving DecidableEq

inductive Chunk where
  | text (s : String)
  | calls (fcs : List FCall)
  deriving DecidableEq

structure Resp where
  chunks : List Chunk
  fails : Bool
  deriving DecidableEq

inductive Ev where
  | acquire
  | request
  | execTool (fc : FCall)
  deriving DecidableEq

structure StepSt where
  hist : List Turn
  buf : List Part
  backend : List Resp
  trace : List Ev
  deriving DecidableEq

/-! ## `_call_tool` (`ai_manager.py`)

An agent-level component's `use` either raises or returns a string (the
code applies `str(...)` to whatever is returned before recording it). -/

structure Component where
  useFn : String → Except String String

/-- Embeds `_call_tool(function_call)`: an unknown component name and a raising
`use` are both converted to error-describing strings; the function itself
never raises. -/
def callTool (comps : String → Option Component) (fc : FCall) : String :=
  match comps fc.name with
  | none => "Error: Component '" ++ fc.name ++ "' not found."
  | some c =>
    match c.useFn fc.args with
    | Except.ok r => r
    | Except.error e => "Error executing tool '" ++ fc.name ++ "': " ++ e

/-- The effective user message of a step: the interrupt when present and
non-empty, otherwise the default continuation prompt (`if not
effective_user_message:` treats `None` and `""` alike). -/
def effectiveMsg (intr : Option String) : String :=
  match intr with
  | some m => if m = "" then "Your Inner voice says you to proceed." else m
  | none => "Your Inner voice says you to proceed."

/-- The `_apply_rate_limit()` call site: records the acquisition. -/
def doAcquire (st : StepSt) : StepSt :=
  { st with trace := st.trace ++ [Ev.acquire] }

/-- The `generate_content_stream(...)` call site: records the request and pops
the next scripted response; an exhausted script is a failing stream. -/
def doSend (st : StepSt) : StepSt × Resp :=
  match st.backend with
  | [] => ({ st with trace := st.trace ++ [Ev.request] }, ⟨[], true⟩)
  | r :: rs => ({ st with backend := rs, trace := st.trace ++ [Ev.request] }, r)

/-- Buffer one text fragment into `model_response_parts` (an empty string
is falsy in Python and is skipped). -/
def bufText (st : StepSt) (s : String) : StepSt :=
  if s = "" then st else { st with buf := st.buf ++ [Part.text s] }

/-- Scan one chunk for text only, as the third-level loop does. -/
def bufChunk (st : StepSt) (c : Chunk) : StepSt :=
  match c with
  | Chunk.text s => bufText st s
  | Chunk.calls _ => st

/-- Lines 174–184: the third-level `final_gen_stream` — a fresh rate-limit
acquisition and request, whose chunks are scanned for text only (`if
final_chunk.text:` with no other branch), so function calls at this depth
are silently dropped.  Returns whether the stream raised. -/
def runFinal (st : StepSt) : StepSt × Bool :=
  let sr := doSend (doAcquire st)
  (sr.2.chunks.foldl bufChunk sr.1, sr.2.fails)

/-- Lines 157–184 for one chained (second-level) call: execute the
callback, append the model call turn and the user-role result turn, then
issue the third-level exchange. -/
def handleFC2 (cb : FCall → String) (st : StepSt) (fc : FCall) : StepSt × Bool :=
  let res := cb fc
  runFinal { st with
    hist := st.hist ++ [⟨Role.model, [Part.call fc]⟩, ⟨Role.user, [Part.text res]⟩],
    trace := st.trace ++ [Ev.execTool fc] }

/-- The `for next_fc_item in follow_up_chunk.function_calls` loop; when no
callback is set the body is skipped entirely (`if
self._tool_executor_callback:` has no `else` at this level). -/
def runFCs2 (cbOpt : Option (FCall → String)) : StepSt → List FCall → StepSt × Bool
  | st, [] => (st, false)
  | st, fc :: rest =>
    match cbOpt with
    | none => runFCs2 cbOpt st rest
    | some cb =>
      let pr := handleFC2 cb st fc
      if pr.2 then pr else runFCs2 cbOpt pr.1 rest

/-- The `for follow_up_chunk in follow_up_stream` loop (lines 149–184):
text first, then chained function calls; iteration continues after a
chained call and aborts only when a nested stream raises. -/
def runFollowChunks (cbOpt : Option (FCall → String)) : StepSt → List Chunk → StepSt × Bool
  | st, [] => (st, false)
  | st, Chunk.text s :: rest => runFollowChunks cbOpt (bufText st s) rest
  | st, Chunk.calls fcs :: rest =>
    if fcs.isEmpty then runFollowChunks cbOpt st rest
    else
      let pr := runFCs2 cbOpt st fcs
      if pr.2 then pr else runFollowChunks cbOpt pr.1 rest

/-- Lines 143–185: the follow-up exchange after a first-level tool
execution — acquire, request, process the stream, and raise when the
stream itself raised after its chunks. -/
def runFollowUp (cbOpt : Option (FCall → String)) (st : StepSt) : StepSt × Bool :=
  let sr := doSend (doAcquire st)
  let pr := runFollowChunks cbOpt sr.1 sr.2.chunks
  if pr.2 then pr else (pr.1, sr.2.fails)

/-- Lines 114–185 for one first-level call: append the model call turn,
execute the callback (or record the `callback not set` error string),
append the user-role result turn, then run the follow-up exchange. -/
def handleFC1 (cbOpt : Option (FCall → String)) (st : StepSt) (fc : FCall) : StepSt × Bool :=
  let st1 := { st with hist := st.hist ++ [Turn.mk Role.model [Part.call fc]] }
  let st2 :=
    match cbOpt with
    | some cb =>
      { st1 with hist := st1.hist ++ [Turn.mk Role.user [Part.text (cb fc)]],
                 trace := st1.trace ++ [Ev.execTool fc] }
    | none =>
      { st1 with hist := st1.hist ++ [Turn.mk Role.user
          [Part.text ("Error: Tool executor callback not set for " ++ fc.name ++ ".")]] }
  runFollowUp cbOpt st2

/-- The `for fc_item in chunk.function_calls` loop of the initial stream:
its body ends in an unconditional `break` (line 186, inside the per-call
body), so only the chunk's first function call is ever handled — any
further calls in the same chunk are dropped. -/
def runFCs1 (cbOpt : Option (FCall → String)) : StepSt → List FCall → StepSt × Bool
  | st, [] => (st, false)
  | st, fc :: _ => handleFC1 cbOpt st fc

/-- The `for chunk in stream` loop (lines 111–190): a chunk with function
calls handles its first call (the `break` at line 186 exits only the
inner per-call loop), after which iteration over the stream continues
with the next chunk; text chunks are buffered; the second component
reports a raise from nested processing. -/
def runMainChunks (cbOpt : Option (FCall → String)) : StepSt → List Chunk → StepSt × Bool
  | st, [] => (st, false)
  | st, Chunk.calls fcs :: rest =>
    if fcs.isEmpty then runMainChunks cbOpt st rest
    else
      let pr := runFCs1 cbOpt st fcs
      if pr.2 then pr else runMainChunks cbOpt pr.1 rest
  | st, Chunk.text s :: rest => runMainChunks cbOpt (bufText st s) rest

/-- Lines 200–215: the `except` handler's rollback — pop the last turn
only when it is a user-role turn whose first part is exactly the
triggering message's text. -/
def popIfMatch (h : List Turn) (msg : String) : List Turn :=
  if h.getLast?.any fun t =>
      decide (t.role = Role.user) && decide (t.parts.head? = some (Part.text msg)) then
    h.dropLast
  else h

/-- The tail of the step: on a raise, run the rollback handler; on
success, commit the buffered text (when any) as a single model turn. -/
def stepFinish (st : StepSt) (raised : Bool) (msg : String) : StepSt × Bool :=
  if raised then
    ({ st with hist := popIfMatch st.hist msg }, true)
  else
    (if st.buf.isEmpty then st
     else { st with hist := st.hist ++ [Turn.mk Role.model st.buf] }, false)

/-- Embeds `continue_autonomously(tools, interrupt_message)`: append the
triggering user turn, run the initial exchange and all chained handling,
commit the buffered text as one model turn on success, and on a raise run
the rollback handler.  The second component reports whether the step
raised. -/
def stepRun (cbOpt : Option (FCall → String)) (hist0 : List Turn)
    (intr : Option String) (backend : List Resp) : StepSt × Bool :=
  let msg := effectiveMsg intr
  let st0 : StepSt := ⟨hist0 ++ [Turn.mk Role.user [Part.text msg]], [], backend, []⟩
  let sr := doSend (doAcquire st0)
  let res := runMainChunks cbOpt sr.1 sr.2.chunks
  stepFinish res.1 (res.2 || sr.2.fails) msg

/-- Checks that every `request` event is immediately preceded by an
`acquire` event, scanning with the previous event at hand. -/
def reqAfterAcq (prev : Option Ev) : List Ev → Bool
  | [] => true
  | Ev.request :: rest =>
    decide (prev = some Ev.acquire) && reqAfterAcq (some Ev.request) rest
  | e :: rest => reqAfterAcq (some e) rest

/-- Traces emitted by the step: a concatenation of acquire/request pairs
and tool executions. -/
inductive BlockOK : List Ev → Prop where
  | nil : BlockOK []
  | pair {l : List Ev} : BlockOK l → BlockOK (Ev.acquire :: Ev.request :: l)
  | tool (fc : FCall) {l : List Ev} : BlockOK l → BlockOK (Ev.execTool fc :: l)

/-- How one processing stage relates its input state to its output state:
the history only grows, every model-role turn it appends is a pure
function-call turn, and the trace grows by a well-formed block sequence. -/
def StepOk (st st' : StepSt) : Prop :=
  (∃ app, st'.hist = st.hist ++ app ∧
    ∀ t ∈ app, t.role = Role.model → ∃ fc, t.parts = [Part.call fc]) ∧
  (∃ tr, st'.trace = st.trace ++ tr ∧ BlockOK tr)

/-- A chunk carrying no (non-empty) function-call fragment. -/
def chunkNoCall (c : Chunk) : Bool :=
  match c with
  | Chunk.calls fcs => fcs.isEmpty
  | Chunk.text _ => true

/-- A response that raises without yielding any function-call fragment
(its chunks are text-only, or carry empty call lists). -/
def respFailsNoCall (r : Resp) : Bool :=
  r.fails && r.chunks.all chunkNoCall

/-- Concrete component whose `use` raises, for witnessing the tool-error
path. -/
def witComp : Component := ⟨fun _ => Except.error "boom"⟩

/-- Concrete component table holding only `witComp` under the name `T`. -/
def witComps : String → Option Component :=
  fun n => if n = "T" then some witComp else none

/-- The conclusion of the tool-error claim: a raising `use` is converted to
an error-describing `ToolResult` string; the first-level handler appends
exactly the model call turn and the user-role result turn for the
invocation and then proceeds to the follow-up exchange; and the follow-up
never removes history. -/
def ToolErrorConcl (comps : String → Option Component) (e : String)
    (st : StepSt) (fc : FCall) : Prop :=
  callTool comps fc = "Error executing tool '" ++ fc.name ++ "': " ++ e ∧
  handleFC1 (some (callTool comps)) st fc =
    runFollowUp (some (callTool comps))
      { st with
        hist := st.hist ++ [Turn.mk Role.model [Part.call fc],
          Turn.mk Role.user
            [Part.text ("Error executing tool '" ++ fc.name ++ "': " ++ e)]],
        trace := st.trace ++ [Ev.execTool fc] } ∧
  ∀ st' : StepSt, List.IsPrefix st'.hist (runFollowUp (some (callTool comps)) st').1.hist

/-- Backend script refuting C1: the initial exchange requests tool `T`,
and the follow-up exchange after the tool result raises. -/
def cexBackendC1 : List Resp :=
  [⟨[Chunk.calls [⟨"T", "a"⟩]], false⟩, ⟨[], true⟩]

/-- Backend script refuting C2: three exchanges in a chain, each yielding
one function call; the third-level call `f3` is at the code's depth
cutoff. -/
def cexBackendC2 : List Resp :=
  [⟨[Chunk.calls [⟨"f1", "a"⟩]], false⟩,
   ⟨[Chunk.calls [⟨"f2", "b"⟩]], false⟩,
   ⟨[Chunk.calls [⟨"f3", "c"⟩]], false⟩]

/-! ## Rate limiter (`_apply_rate_limit`, identical in both managers)

Timestamps are rationals; the deque of request timestamps is a sorted
list, oldest first.  `dropWhile` models the `popleft` purge loop, which
removes a prefix of expired timestamps. -/

/-- The `while ... popleft()` purge loop: drop the prefix of timestamps
with `t <= now - 60`. -/
def purgeRL (now : ℚ) (ts : List ℚ) : List ℚ :=
  ts.dropWhile fun t => decide (t ≤ now - 60)

/-- Embeds `_apply_rate_limit` at current time `now`: purge timestamps older than
the 60-unit window; when the configured ceiling is reached, sleep for
`wait = ts[0] + 60 - now` (when positive) and purge again at the new
current time `now + wait`; then record the new request's timestamp.
Returns the new deque and the admission time. -/
def apply_rate_limit (lim : ℕ) (now : ℚ) (ts : List ℚ) : List ℚ × ℚ :=
  if lim ≤ (purgeRL now ts).length then
    if 0 < (purgeRL now ts).headD 0 + 60 - now then
      (purgeRL (now + ((purgeRL now ts).headD 0 + 60 - now)) (purgeRL now ts) ++
          [now + ((purgeRL now ts).headD 0 + 60 - now)],
        now + ((purgeRL now ts).headD 0 + 60 - now))
    else (purgeRL now ts ++ [now], now)
  else (purgeRL now ts ++ [now], now)

/-- Run a sequence of acquisitions.  `t` is the current time (initially
the start time, afterwards the previous admission time, since the caller
is single-threaded and time only moves forward); each element of `ds` is
the nonnegative delay before the next call.  Returns the admission times. -/
def runRL (lim : ℕ) : List ℚ → ℚ → List ℚ → List ℚ
  | _, _, [] => []
  | ts, t, d :: ds =>
    (apply_rate_limit lim (t + d) ts).2 ::
      runRL lim (apply_rate_limit lim (t + d) ts).1 (apply_rate_limit lim (t + d) ts).2 ds

/-- Decidable membership of a timestamp in the rolling window `(u, u+60]`
(the purge keeps exactly the timestamps with `now - 60 < t ≤ now`). -/
def inWindow (u x : ℚ) : Bool :=
  decide (u < x ∧ x ≤ u + 60)

/-- The rate-limiter invariant tying the deque `s` to the admissions so
far `A` at current time `t`. -/
structure RLInv (lim : ℕ) (A : List ℚ) (s : List ℚ) (t : ℚ) : Prop where
  sorted : s.Pairwise (· ≤ ·)
  le_t : ∀ x ∈ s, x ≤ t
  card : s.length ≤ lim
  eqFilter : s = A.filter fun x => decide (t - 60 < x)
  counts : ∀ u, A.countP (inWindow u) ≤ lim

/-- The three parts of the rate-limiter claim, for ceiling `lim`:
a rolling-window admission bound for every call sequence, the exact
behaviour of `lim + 1` back-to-back calls (the last is admitted exactly 60
units after the first), and full purging of the deque relative to each
admission time. -/
def RateLimiterClaim (lim : ℕ) : Prop :=
  (∀ (t0 : ℚ) (ds : List ℚ), (∀ d ∈ ds, 0 ≤ d) →
    ∀ u, (runRL lim [] t0 ds).countP (inWindow u) ≤ lim) ∧
  (∀ t0 : ℚ, runRL lim [] t0 (List.replicate (lim + 1) 0) =
    List.replicate lim t0 ++ [t0 + 60]) ∧
  (∀ (now : ℚ) (s : List ℚ), s.Pairwise (· ≤ ·) →
    ∀ x ∈ (apply_rate_limit lim now s).1, (apply_rate_limit lim now s).2 - 60 < x)

end CompAgent

namespace CompAgent

/-! ## Theorems about discovery and loading -/

/-- Helper: a binding present in the registry is still found after appending
new bindings on the right. -/
theorem lookupReg_append_of_some {reg : Registry} {n : String} {m : Mem}
    (h : lookupReg reg n = some m) (l : Registry) :
    lookupReg (reg ++ l) n = some m := by
  induction reg with
  | nil => simp [lookupReg] at h
  | cons p rest ih =>
    by_cases hp : p.1 = n
    · simpa [lookupReg, hp] using h
    · simp only [lookupReg, hp, if_false, List.cons_append] at h ⊢
      exact ih h

/-- Helper: appending a single fresh binding makes its key found. -/
theorem lookupReg_append_self (reg : Registry) (n : String) (m : Mem)
    (h : lookupReg reg n = none) :
    lookupReg (reg ++ [(n, m)]) n = some m := by
  induction reg with
  | nil => simp [lookupReg]
  | cons p rest ih =>
    by_cases hp : p.1 = n
    · simp [lookupReg, hp] at h
    · simp only [lookupReg, hp, if_false, List.cons_append] at h ⊢
      exact ih h

/-- Helper: appending a binding under a different key changes no lookup. -/
theorem lookupReg_append_other (reg : Registry) (k n : String) (m : Mem)
    (h : k ≠ n) :
    lookupReg (reg ++ [(k, m)]) n = lookupReg reg n := by
  induction reg with
  | nil => simp [lookupReg, h]
  | cons p rest ih =>
    by_cases hp : p.1 = n
    · simp [lookupReg, hp]
    · simp only [List.cons_append, lookupReg, hp, if_false]
      exact ih

/-- Helper: `discoverMember` never disturbs an existing binding. -/
theorem discoverMember_preserves {reg : Registry} {n : String} {m : Mem}
    (h : lookupReg reg n = some m) (x : Mem) :
    lookupReg (discoverMember reg x) n = some m := by
  unfold discoverMember
  split
  · split
    · exact h
    · exact lookupReg_append_of_some h _
  · exact h

/-- Helper: `_discover_component_classes` never disturbs an existing binding. -/
theorem discoverComponentClasses_preserves {reg : Registry} {n : String} {m : Mem}
    (h : lookupReg reg n = some m) (mod : Mod) :
    lookupReg (discoverComponentClasses reg mod) n = some m := by
  unfold discoverComponentClasses
  induction mod.members generalizing reg with
  | nil => exact h
  | cons x rest ih => exact ih (discoverMember_preserves h x)

/-- C5: descriptor names are unique and first-wins: a binding already in
the registry survives discovery of any further module unchanged, and a
later member that collides with a registered name is dropped outright
(the registry is returned unmodified). -/
theorem discovery_first_wins (reg : Registry) (mod : Mod) (n : String) (m : Mem)
    (h : lookupReg reg n = some m) :
    lookupReg (discoverComponentClasses reg mod) n = some m ∧
      ∀ x : Mem, x.clsName = n → x.isStrictComponentSubclass = true →
        discoverMember reg x = reg := by
  refine ⟨discoverComponentClasses_preserves h mod, ?_⟩
  intro x hx hgood
  unfold discoverMember
  rw [hgood, hx, h]
  simp

/-- Witness for C5 at a concrete registry and colliding module. -/
theorem discovery_first_wins_witness :
    lookupReg [("Reporter", ⟨"Reporter", true⟩)] "Reporter" = some ⟨"Reporter", true⟩ ∧
      lookupReg
        (discoverComponentClasses [("Reporter", ⟨"Reporter", true⟩)]
          ⟨"unit2", [⟨"Reporter", true⟩]⟩) "Reporter" = some ⟨"Reporter", true⟩ := by
  refine ⟨by decide, ?_⟩
  exact (discovery_first_wins [("Reporter", ⟨"Reporter", true⟩)]
    ⟨"unit2", [⟨"Reporter", true⟩]⟩ "Reporter" ⟨"Reporter", true⟩ (by decide)).1

/-- C4 counterexample: a source unit whose base filename is `example` but
whose declared class name is `Reporter` is nevertheless recorded as
discoverable under `Reporter` — the code never compares the class name with
the file's base identifier. -/
theorem discovery_ignores_filename_cex :
    lookupReg (discoverComponentClasses [] ⟨"example", [⟨"Reporter", true⟩]⟩)
        "Reporter" = some ⟨"Reporter", true⟩ ∧
      ("Reporter" : String) ≠ "example" := by
  exact ⟨by decide, by decide⟩

/-- Helper: when a single member is processed, a name becomes discoverable
exactly when it already was, or the member is a strict subclass declared
under that very name. -/
theorem discoverMember_isSome (reg : Registry) (x : Mem) (n : String) :
    (lookupReg (discoverMember reg x) n).isSome = true ↔
      ((lookupReg reg n).isSome = true ∨
        (x.isStrictComponentSubclass = true ∧ x.clsName = n)) := by
  unfold discoverMember
  by_cases hgood : x.isStrictComponentSubclass = true
  · rw [if_pos hgood]
    by_cases hdup : (lookupReg reg x.clsName).isSome = true
    · rw [if_pos hdup]
      constructor
      · exact Or.inl
      · rintro (h | ⟨_, hn⟩)
        · exact h
        · rw [← hn]; exact hdup
    · rw [if_neg hdup]
      by_cases hn : x.clsName = n
      · subst hn
        have hfound := lookupReg_append_self reg x.clsName x
          (Option.not_isSome_iff_eq_none.mp hdup)
        rw [hfound]
        simp [hgood]
      · rw [lookupReg_append_other reg x.clsName n x hn]
        simp [hn]
  · rw [if_neg hgood]
    simp [hgood]

/-- C4 (amended): a class is recorded as discoverable exactly when it is a
strict `BaseComponent` subclass among the unit's members (or was already
registered); the unit's base filename plays no role in the condition. -/
theorem discovery_by_class_membership (reg : Registry) (mod : Mod) (n : String) :
    (lookupReg (discoverComponentClasses reg mod) n).isSome = true ↔
      ((lookupReg reg n).isSome = true ∨
        ∃ m ∈ mod.members, m.isStrictComponentSubclass = true ∧ m.clsName = n) := by
  unfold discoverComponentClasses
  induction mod.members generalizing reg with
  | nil => simp
  | cons x rest ih =>
    rw [List.foldl_cons, ih, discoverMember_isSome]
    simp only [List.mem_cons]
    constructor
    · rintro ((hreg | hx) | ⟨m, hm, hms⟩)
      · exact Or.inl hreg
      · exact Or.inr ⟨x, Or.inl rfl, hx⟩
      · exact Or.inr ⟨m, Or.inr hm, hms⟩
    · rintro (hreg | ⟨m, hm | hm, hms⟩)
      · exact Or.inl (Or.inl hreg)
      · subst hm; exact Or.inl (Or.inr hms)
      · exact Or.inr ⟨m, hm, hms⟩

/-- Helper: a binding appended to the loaded list is found when its key was
previously absent. -/
theorem lookupInst_append_self (l : List (String × CompInst)) (n : String)
    (i : CompInst) (h : lookupInst l n = none) :
    lookupInst (l ++ [(n, i)]) n = some i := by
  induction l with
  | nil => simp [lookupInst]
  | cons p rest ih =>
    by_cases hp : p.1 = n
    · simp [lookupInst, hp] at h
    · simp only [lookupInst, hp, if_false, List.cons_append] at h ⊢
      exact ih h

/-- C6: `load_component` is idempotent.  After any successful load, the
instance is registered under its name, and a second load returns the very
same instance with the manager state (loaded set, `onload` invocation log,
instance counter) completely unchanged. -/
theorem load_component_idempotent (s s₁ : MgrSt) (n : String) (i : CompInst)
    (h : loadComponent s n = (s₁, some i)) :
    lookupInst s₁.loaded n = some i ∧
      loadComponent s₁ n = (s₁, some i) ∧
      (loadComponent s₁ n).1.onloadLog = s₁.onloadLog := by
  have hlook : lookupInst s₁.loaded n = some i := by
    unfold loadComponent at h
    cases hl : lookupInst s.loaded n with
    | some inst =>
      rw [hl] at h
      cases h
      simpa using hl
    | none =>
      rw [hl] at h
      cases hc : lookupCls s.available n with
      | none => rw [hc] at h; cases h
      | some cls =>
        rw [hc] at h
        by_cases hf : cls.onloadFails
        · simp only [hf, if_true] at h
          cases h
        · simp only [hf, if_false] at h
          cases h
          simpa using lookupInst_append_self s.loaded n _ hl
  have hload : loadComponent s₁ n = (s₁, some i) := by
    unfold loadComponent
    rw [hlook]
  exact ⟨hlook, hload, by rw [hload]⟩

/-- Witness for C6 at a concrete manager state. -/
theorem load_component_idempotent_witness :
    loadComponent ⟨[("A", ⟨0, false⟩)], [], 0, []⟩ "A" =
        (⟨[("A", ⟨0, false⟩)], [("A", ⟨⟨0, false⟩, 0⟩)], 1, ["A"]⟩,
          some ⟨⟨0, false⟩, 0⟩) ∧
      loadComponent ⟨[("A", ⟨0, false⟩)], [("A", ⟨⟨0, false⟩, 0⟩)], 1, ["A"]⟩ "A" =
        (⟨[("A", ⟨0, false⟩)], [("A", ⟨⟨0, false⟩, 0⟩)], 1, ["A"]⟩,
          some ⟨⟨0, false⟩, 0⟩) := by
  refine ⟨by decide, ?_⟩
  exact (load_component_idempotent ⟨[("A", ⟨0, false⟩)], [], 0, []⟩
    _ "A" ⟨⟨0, false⟩, 0⟩ (by decide)).2.1

/-- C9: `use_component` never propagates an exception: it returns `None`
when the name is not loaded, `None` when the component's `use` raises, and
the raw result otherwise — so a caught failure is indistinguishable from a
tool that legitimately returned `None`. -/
theorem use_component_total (loaded : String → Option MComponent) (n : String)
    (args : List String) :
    (loaded n = none → useComponent loaded n args = none) ∧
      (∀ c e, loaded n = some c → c.useFn args = Except.error e →
        useComponent loaded n args = none) ∧
      (∀ c, loaded n = some c → c.useFn args = Except.ok none →
        useComponent loaded n args = none) ∧
      (∀ c v, loaded n = some c → c.useFn args = Except.ok (some v) →
        useComponent loaded n args = some v) := by
  refine ⟨?_, ?_, ?_, ?_⟩
  · intro h; simp [useComponent, h]
  · intro c e hc he; simp [useComponent, hc, he]
  · intro c hc he; simp [useComponent, hc, he]
  · intro c v hc hv; simp [useComponent, hc, hv]

/-- Witness for C9: the three `None` outcomes coincide at concrete inputs. -/
theorem use_component_total_witness :
    useComponent (fun _ => none) "x" [] = none ∧
      useComponent (fun _ => some ⟨fun _ => Except.error "boom"⟩) "x" [] = none ∧
      useComponent (fun _ => some ⟨fun _ => Except.ok none⟩) "x" [] = none := by
  refine ⟨?_, ?_, ?_⟩
  · exact (use_component_total (fun _ => none) "x" []).1 rfl
  · exact (use_component_total (fun _ => some ⟨fun _ => Except.error "boom"⟩)
      "x" []).2.1 ⟨fun _ => Except.error "boom"⟩ "boom" rfl rfl
  · exact (use_component_total (fun _ => some ⟨fun _ => Except.ok none⟩)
      "x" []).2.2.1 ⟨fun _ => Except.ok none⟩ rfl rfl

/-! ## Theorems about the conversation step -/

/-- Helper: well-formed trace blocks concatenate. -/
theorem BlockOK.append {a b : List Ev} (ha : BlockOK a) (hb : BlockOK b) :
    BlockOK (a ++ b) := by
  induction ha with
  | nil => simpa using hb
  | pair _ ih => exact BlockOK.pair ih
  | tool fc _ ih => exact BlockOK.tool fc ih

/-- Helper: `StepOk` is reflexive. -/
theorem stepOk_refl (st : StepSt) : StepOk st st :=
  ⟨⟨[], by simp, by simp⟩, ⟨[], by simp, BlockOK.nil⟩⟩

/-- Helper: `StepOk` composes. -/
theorem stepOk_trans {a b c : StepSt} (h1 : StepOk a b) (h2 : StepOk b c) :
    StepOk a c := by
  obtain ⟨⟨ap1, he1, hm1⟩, ⟨t1, ht1, hb1⟩⟩ := h1
  obtain ⟨⟨ap2, he2, hm2⟩, ⟨t2, ht2, hb2⟩⟩ := h2
  refine ⟨⟨ap1 ++ ap2, ?_, ?_⟩, ⟨t1 ++ t2, ?_, BlockOK.append hb1 hb2⟩⟩
  · rw [he2, he1, List.append_assoc]
  · intro t ht
    rcases List.mem_append.mp ht with h | h
    · exact hm1 t h
    · exact hm2 t h
  · rw [ht2, ht1, List.append_assoc]

/-- Helper: the acquire–request pair leaves history alone and appends a
well-formed block. -/
theorem stepOk_sendAcq (st : StepSt) : StepOk st (doSend (doAcquire st)).1 := by
  cases hb : st.backend with
  | nil =>
    refine ⟨⟨[], by simp [doSend, doAcquire, hb], by simp⟩,
      ⟨[Ev.acquire, Ev.request], ?_, BlockOK.pair BlockOK.nil⟩⟩
    simp [doSend, doAcquire, hb]
  | cons r rs =>
    refine ⟨⟨[], by simp [doSend, doAcquire, hb], by simp⟩,
      ⟨[Ev.acquire, Ev.request], ?_, BlockOK.pair BlockOK.nil⟩⟩
    simp [doSend, doAcquire, hb]

/-- Helper: buffering text touches only `buf`. -/
theorem bufText_fields (st : StepSt) (s : String) :
    (bufText st s).hist = st.hist ∧ (bufText st s).trace = st.trace ∧
      (bufText st s).backend = st.backend := by
  unfold bufText
  split <;> exact ⟨rfl, rfl, rfl⟩

/-- Helper: the third-level text scan touches only `buf`. -/
theorem foldl_bufChunk_fields (cs : List Chunk) (st : StepSt) :
    (cs.foldl bufChunk st).hist = st.hist ∧
      (cs.foldl bufChunk st).trace = st.trace ∧
      (cs.foldl bufChunk st).backend = st.backend := by
  induction cs generalizing st with
  | nil => exact ⟨rfl, rfl, rfl⟩
  | cons c rest ih =>
    rw [List.foldl_cons]
    obtain ⟨h1, h2, h3⟩ := ih (bufChunk st c)
    cases c with
    | text s =>
      obtain ⟨g1, g2, g3⟩ := bufText_fields st s
      exact ⟨by rw [h1]; exact g1, by rw [h2]; exact g2, by rw [h3]; exact g3⟩
    | calls fcs => exact ⟨h1, h2, h3⟩

/-- Helper: `doSend (doAcquire st)` field characterization. -/
theorem sendAcq_fields (st : StepSt) :
    (doSend (doAcquire st)).1.hist = st.hist ∧
      (doSend (doAcquire st)).1.trace = st.trace ++ [Ev.acquire, Ev.request] ∧
      (doSend (doAcquire st)).1.buf = st.buf := by
  cases hb : st.backend <;> simp [doSend, doAcquire, hb]

/-- Helper: the third-level exchange neither changes the history nor emits
anything but its own acquire–request pair. -/
theorem runFinal_fields (st : StepSt) :
    (runFinal st).1.hist = st.hist ∧
      (runFinal st).1.trace = st.trace ++ [Ev.acquire, Ev.request] := by
  unfold runFinal
  obtain ⟨h1, h2, _⟩ := foldl_bufChunk_fields (doSend (doAcquire st)).2.chunks
    (doSend (doAcquire st)).1
  obtain ⟨g1, g2, _⟩ := sendAcq_fields st
  exact ⟨by rw [h1]; exact g1, by rw [h2]; exact g2⟩

/-- Helper: one chained (second-level) call appends exactly its call turn
and result turn and issues exactly one further exchange. -/
theorem handleFC2_fields (cb : FCall → String) (st : StepSt) (fc : FCall) :
    (handleFC2 cb st fc).1.hist =
        st.hist ++ [Turn.mk Role.model [Part.call fc],
          Turn.mk Role.user [Part.text (cb fc)]] ∧
      (handleFC2 cb st fc).1.trace =
        st.trace ++ [Ev.execTool fc, Ev.acquire, Ev.request] := by
  unfold handleFC2
  obtain ⟨h1, h2⟩ := runFinal_fields
    { st with
      hist := st.hist ++ [⟨Role.model, [Part.call fc]⟩,
        ⟨Role.user, [Part.text (cb fc)]⟩],
      trace := st.trace ++ [Ev.execTool fc] }
  exact ⟨h1, by rw [h2]; simp⟩

/-- Helper: `runFinal` satisfies the step relation. -/
theorem runFinal_stepOk (st : StepSt) : StepOk st (runFinal st).1 := by
  obtain ⟨h1, h2⟩ := runFinal_fields st
  exact ⟨⟨[], by simp [h1], by simp⟩,
    ⟨[Ev.acquire, Ev.request], h2, BlockOK.pair BlockOK.nil⟩⟩

/-- Helper: one chained call satisfies the step relation. -/
theorem handleFC2_stepOk (cb : FCall → String) (st : StepSt) (fc : FCall) :
    StepOk st (handleFC2 cb st fc).1 := by
  obtain ⟨h1, h2⟩ := handleFC2_fields cb st fc
  refine ⟨⟨[Turn.mk Role.model [Part.call fc],
    Turn.mk Role.user [Part.text (cb fc)]], h1, ?_⟩,
    ⟨[Ev.execTool fc, Ev.acquire, Ev.request], h2,
      BlockOK.tool fc (BlockOK.pair BlockOK.nil)⟩⟩
  intro t ht hrole
  rcases List.mem_cons.mp ht with h | h
  · exact ⟨fc, by rw [h]⟩
  · rcases List.mem_cons.mp h with h' | h'
    · rw [h'] at hrole
      cases hrole
    · simp at h'

/-- Helper: the second-level call loop satisfies the step relation. -/
theorem runFCs2_stepOk (cbOpt : Option (FCall → String)) :
    ∀ (fcs : List FCall) (st : StepSt), StepOk st (runFCs2 cbOpt st fcs).1 := by
  intro fcs
  induction fcs with
  | nil => intro st; exact stepOk_refl st
  | cons fc rest ih =>
    intro st
    cases cbOpt with
    | none => exact ih st
    | some cb =>
      simp only [runFCs2]
      split
      · exact handleFC2_stepOk cb st fc
      · exact stepOk_trans (handleFC2_stepOk cb st fc) (ih _)

/-- Helper: the follow-up chunk loop satisfies the step relation. -/
theorem runFollowChunks_stepOk (cbOpt : Option (FCall → String)) :
    ∀ (cs : List Chunk) (st : StepSt), StepOk st (runFollowChunks cbOpt st cs).1 := by
  intro cs
  induction cs with
  | nil => intro st; exact stepOk_refl st
  | cons c rest ih =>
    intro st
    cases c with
    | text s =>
      have hb : StepOk st (bufText st s) := by
        obtain ⟨h1, h2, _⟩ := bufText_fields st s
        exact ⟨⟨[], by simp [h1], by simp⟩, ⟨[], by simp [h2], BlockOK.nil⟩⟩
      exact stepOk_trans hb (ih _)
    | calls fcs =>
      simp only [runFollowChunks]
      split
      · exact ih st
      · split
        · exact runFCs2_stepOk cbOpt fcs st
        · exact stepOk_trans (runFCs2_stepOk cbOpt fcs st) (ih _)

/-- Helper: the follow-up exchange satisfies the step relation. -/
theorem runFollowUp_stepOk (cbOpt : Option (FCall → String)) (st : StepSt) :
    StepOk st (runFollowUp cbOpt st).1 := by
  have h1 := stepOk_sendAcq st
  have h2 := runFollowChunks_stepOk cbOpt (doSend (doAcquire st)).2.chunks
    (doSend (doAcquire st)).1
  have key : (runFollowUp cbOpt st).1 =
      (runFollowChunks cbOpt (doSend (doAcquire st)).1
        (doSend (doAcquire st)).2.chunks).1 := by
    unfold runFollowUp
    dsimp only
    split <;> rfl
  rw [key]
  exact stepOk_trans h1 h2

/-- Helper: one first-level call satisfies the step relation. -/
theorem handleFC1_stepOk (cbOpt : Option (FCall → String)) (st : StepSt) (fc : FCall) :
    StepOk st (handleFC1 cbOpt st fc).1 := by
  unfold handleFC1
  cases cbOpt with
  | some cb =>
    refine stepOk_trans (b := { st with
      hist := (st.hist ++ [Turn.mk Role.model [Part.call fc]]) ++
        [Turn.mk Role.user [Part.text (cb fc)]],
      trace := st.trace ++ [Ev.execTool fc] }) ?_ (runFollowUp_stepOk _ _)
    refine ⟨⟨[Turn.mk Role.model [Part.call fc], Turn.mk Role.user [Part.text (cb fc)]],
      by simp, ?_⟩, ⟨[Ev.execTool fc], by simp, BlockOK.tool fc BlockOK.nil⟩⟩
    intro t ht hrole
    rcases List.mem_cons.mp ht with h | h
    · exact ⟨fc, by rw [h]⟩
    · rcases List.mem_cons.mp h with h' | h'
      · rw [h'] at hrole
        cases hrole
      · simp at h'
  | none =>
    refine stepOk_trans (b := { st with
      hist := (st.hist ++ [Turn.mk Role.model [Part.call fc]]) ++
        [Turn.mk Role.user
          [Part.text ("Error: Tool executor callback not set for " ++ fc.name ++ ".")]] })
      ?_ (runFollowUp_stepOk _ _)
    refine ⟨⟨[Turn.mk Role.model [Part.call fc], Turn.mk Role.user
      [Part.text ("Error: Tool executor callback not set for " ++ fc.name ++ ".")]],
      by simp, ?_⟩, ⟨[], by simp, BlockOK.nil⟩⟩
    intro t ht hrole
    rcases List.mem_cons.mp ht with h | h
    · exact ⟨fc, by rw [h]⟩
    · rcases List.mem_cons.mp h with h' | h'
      · rw [h'] at hrole
        cases hrole
      · simp at h'

/-- Helper: the first-level call loop satisfies the step relation. -/
theorem runFCs1_stepOk (cbOpt : Option (FCall → String)) :
    ∀ (fcs : List FCall) (st : StepSt), StepOk st (runFCs1 cbOpt st fcs).1 := by
  intro fcs st
  cases fcs with
  | nil => exact stepOk_refl st
  | cons fc rest => exact handleFC1_stepOk cbOpt st fc

/-- Helper: the initial chunk loop satisfies the step relation. -/
theorem runMainChunks_stepOk (cbOpt : Option (FCall → String)) :
    ∀ (cs : List Chunk) (st : StepSt), StepOk st (runMainChunks cbOpt st cs).1 := by
  intro cs
  induction cs with
  | nil => intro st; exact stepOk_refl st
  | cons c rest ih =>
    intro st
    cases c with
    | calls fcs =>
      simp only [runMainChunks]
      split
      · exact ih st
      · split
        · exact runFCs1_stepOk cbOpt fcs st
        · exact stepOk_trans (runFCs1_stepOk cbOpt fcs st) (ih _)
    | text s =>
      have hb : StepOk st (bufText st s) := by
        obtain ⟨h1, h2, _⟩ := bufText_fields st s
        exact ⟨⟨[], by simp [h1], by simp⟩, ⟨[], by simp [h2], BlockOK.nil⟩⟩
      exact stepOk_trans hb (ih _)

/-- Helper: a well-formed block trace passes the request/acquire scan
whatever event precedes it. -/
theorem blockOK_reqAfterAcq {l : List Ev} (h : BlockOK l) :
    ∀ p, reqAfterAcq p l = true := by
  induction h with
  | nil => intro p; rfl
  | pair _ ih =>
    intro p
    simp only [reqAfterAcq]
    simpa using ih (some Ev.request)
  | tool fc _ ih =>
    intro p
    simp only [reqAfterAcq]
    exact ih (some (Ev.execTool fc))

/-- Helper: `stepFinish` reports exactly the raised flag its caller
computed. -/
theorem stepFinish_snd (st : StepSt) (b : Bool) (m : String) :
    (stepFinish st b m).2 = b := by
  cases b with
  | true => rfl
  | false =>
    unfold stepFinish
    rw [if_neg (by simp)]

/-- Helper: `stepFinish` never touches the trace. -/
theorem stepFinish_trace (st : StepSt) (b : Bool) (m : String) :
    (stepFinish st b m).1.trace = st.trace := by
  cases b with
  | true => rfl
  | false =>
    unfold stepFinish
    rw [if_neg (by simp)]
    by_cases hb : st.buf.isEmpty
    · rw [if_pos hb]
    · rw [if_neg hb]

/-- Helper: on the raised path, the result history is the rollback of the
processed history. -/
theorem stepFinish_true_hist (st : StepSt) (m : String) :
    (stepFinish st true m).1.hist = popIfMatch st.hist m := rfl

/-- Helper: `stepRun` unfolded to its `stepFinish` tail. -/
theorem stepRun_eq_finish (cbOpt : Option (FCall → String)) (hist0 : List Turn)
    (intr : Option String) (backend : List Resp) :
    stepRun cbOpt hist0 intr backend =
      stepFinish
        (runMainChunks cbOpt
          (doSend (doAcquire
            ⟨hist0 ++ [Turn.mk Role.user [Part.text (effectiveMsg intr)]], [], backend, []⟩)).1
          (doSend (doAcquire
            ⟨hist0 ++ [Turn.mk Role.user [Part.text (effectiveMsg intr)]], [], backend, []⟩)).2.chunks).1
        ((runMainChunks cbOpt
          (doSend (doAcquire
            ⟨hist0 ++ [Turn.mk Role.user [Part.text (effectiveMsg intr)]], [], backend, []⟩)).1
          (doSend (doAcquire
            ⟨hist0 ++ [Turn.mk Role.user [Part.text (effectiveMsg intr)]], [], backend, []⟩)).2.chunks).2 ||
          (doSend (doAcquire
            ⟨hist0 ++ [Turn.mk Role.user [Part.text (effectiveMsg intr)]], [], backend, []⟩)).2.fails)
        (effectiveMsg intr) := rfl

/-- Helper: the whole step's result trace is a well-formed block trace. -/
theorem stepRun_trace_blockOK (cbOpt : Option (FCall → String)) (hist0 : List Turn)
    (intr : Option String) (backend : List Resp) :
    ∃ tr, (stepRun cbOpt hist0 intr backend).1.trace = tr ∧ BlockOK tr := by
  have h := stepOk_trans
    (stepOk_sendAcq
      ⟨hist0 ++ [Turn.mk Role.user [Part.text (effectiveMsg intr)]], [], backend, []⟩)
    (runMainChunks_stepOk cbOpt
      (doSend (doAcquire
        ⟨hist0 ++ [Turn.mk Role.user [Part.text (effectiveMsg intr)]], [], backend, []⟩)).2.chunks
      (doSend (doAcquire
        ⟨hist0 ++ [Turn.mk Role.user [Part.text (effectiveMsg intr)]], [], backend, []⟩)).1)
  obtain ⟨_, ⟨tr, htr, hb⟩⟩ := h
  refine ⟨tr, ?_, hb⟩
  rw [stepRun_eq_finish, stepFinish_trace, htr]
  rfl

/-- C7: every outbound backend exchange in a step — the initial exchange
and every chained follow-up at either depth — is immediately preceded by a
rate-limit acquisition; no path through the step issues a request without
first acquiring. -/
theorem every_request_rate_limited (cbOpt : Option (FCall → String))
    (hist0 : List Turn) (intr : Option String) (backend : List Resp) :
    reqAfterAcq none (stepRun cbOpt hist0 intr backend).1.trace = true := by
  obtain ⟨tr, htr, hb⟩ := stepRun_trace_blockOK cbOpt hist0 intr backend
  rw [htr]
  exact blockOK_reqAfterAcq hb none

/-- Helper: the rollback handler either leaves the history alone or drops
exactly its last turn. -/
theorem popIfMatch_cases (l : List Turn) (m : String) :
    popIfMatch l m = l ∨ popIfMatch l m = l.dropLast := by
  unfold popIfMatch
  split
  · exact Or.inr rfl
  · exact Or.inl rfl

/-- Helper: when the triggering user turn is still last, the rollback
removes exactly it. -/
theorem popIfMatch_concat (l : List Turn) (m : String) :
    popIfMatch (l ++ [Turn.mk Role.user [Part.text m]]) m = l := by
  unfold popIfMatch
  rw [List.getLast?_concat]
  rw [if_pos (by simp [Option.any])]
  exact List.dropLast_concat ..

/-- Helper: the step's result history on the raised path comes from the
processed state through the rollback handler. -/
theorem stepRun_raised_hist (cbOpt : Option (FCall → String)) (hist0 : List Turn)
    (intr : Option String) (backend : List Resp)
    (h : (stepRun cbOpt hist0 intr backend).2 = true) :
    (stepRun cbOpt hist0 intr backend).1.hist =
      popIfMatch
        (runMainChunks cbOpt
          (doSend (doAcquire
            ⟨hist0 ++ [Turn.mk Role.user [Part.text (effectiveMsg intr)]], [], backend, []⟩)).1
          (doSend (doAcquire
            ⟨hist0 ++ [Turn.mk Role.user [Part.text (effectiveMsg intr)]], [], backend, []⟩)).2.chunks).1.hist
        (effectiveMsg intr) := by
  rw [stepRun_eq_finish] at h ⊢
  rw [stepFinish_snd] at h
  rw [h]
  exact stepFinish_true_hist ..

/-- C10: when the backend raises at any point during a step, no model-role
text turn is committed: every turn the failed step leaves behind beyond
the original history is either the user-role turns it appended or a pure
function-call model turn — the buffered text fragments are discarded. -/
theorem step_failure_no_model_text (cbOpt : Option (FCall → String))
    (hist0 : List Turn) (intr : Option String) (backend : List Resp)
    (h : (stepRun cbOpt hist0 intr backend).2 = true) :
    ∃ app, (stepRun cbOpt hist0 intr backend).1.hist = hist0 ++ app ∧
      ∀ t ∈ app, t.role = Role.model → ∀ s, Part.text s ∉ t.parts := by
  have hok := stepOk_trans
    (stepOk_sendAcq
      ⟨hist0 ++ [Turn.mk Role.user [Part.text (effectiveMsg intr)]], [], backend, []⟩)
    (runMainChunks_stepOk cbOpt
      (doSend (doAcquire
        ⟨hist0 ++ [Turn.mk Role.user [Part.text (effectiveMsg intr)]], [], backend, []⟩)).2.chunks
      (doSend (doAcquire
        ⟨hist0 ++ [Turn.mk Role.user [Part.text (effectiveMsg intr)]], [], backend, []⟩)).1)
  obtain ⟨⟨app0, happ0, hmodel⟩, _⟩ := hok
  rw [stepRun_raised_hist cbOpt hist0 intr backend h]
  have hres : (runMainChunks cbOpt
      (doSend (doAcquire
        ⟨hist0 ++ [Turn.mk Role.user [Part.text (effectiveMsg intr)]], [], backend, []⟩)).1
      (doSend (doAcquire
        ⟨hist0 ++ [Turn.mk Role.user [Part.text (effectiveMsg intr)]], [], backend, []⟩)).2.chunks).1.hist =
      hist0 ++ (Turn.mk Role.user [Part.text (effectiveMsg intr)] :: app0) := by
    rw [happ0]
    simp
  have hprop : ∀ t ∈ Turn.mk Role.user [Part.text (effectiveMsg intr)] :: app0,
      t.role = Role.model → ∀ s, Part.text s ∉ t.parts := by
    intro t ht hrole s
    rcases List.mem_cons.mp ht with h' | h'
    · rw [h'] at hrole
      cases hrole
    · obtain ⟨fc, hfc⟩ := hmodel t h' hrole
      rw [hfc]
      simp
  rcases popIfMatch_cases (runMainChunks cbOpt
      (doSend (doAcquire
        ⟨hist0 ++ [Turn.mk Role.user [Part.text (effectiveMsg intr)]], [], backend, []⟩)).1
      (doSend (doAcquire
        ⟨hist0 ++ [Turn.mk Role.user [Part.text (effectiveMsg intr)]], [], backend, []⟩)).2.chunks).1.hist
      (effectiveMsg intr) with hp | hp
  · refine ⟨Turn.mk Role.user [Part.text (effectiveMsg intr)] :: app0, ?_, hprop⟩
    rw [hp, hres]
  · refine ⟨(Turn.mk Role.user [Part.text (effectiveMsg intr)] :: app0).dropLast, ?_, ?_⟩
    · rw [hp, hres, List.dropLast_append_of_ne_nil hist0 (by simp)]
    · intro t ht
      exact hprop t ((List.dropLast_sublist _).subset ht)

/-- Witness for C10: with no scripted responses the request fails, the
step raises, and the history is restored with no model text committed. -/
theorem step_failure_no_model_text_witness :
    (stepRun none [] none []).2 = true ∧
      ∃ app, (stepRun none [] none []).1.hist = [] ++ app ∧
        ∀ t ∈ app, t.role = Role.model → ∀ s, Part.text s ∉ t.parts :=
  ⟨rfl, step_failure_no_model_text none [] none [] rfl⟩

/-- C1 counterexample: a client error raised during the chained follow-up
exchange does not restore the pre-step state.  The tool-call turn and the
tool-result turn appended before the failure survive, and the rollback
guard (which only pops a final user turn matching the triggering text)
fires on nothing, so the history is strictly larger than the empty
pre-step state. -/
theorem step_rollback_not_exact_cex :
    (stepRun (some (fun _ => "res")) [] (some "go") cexBackendC1).2 = true ∧
      (stepRun (some (fun _ => "res")) [] (some "go") cexBackendC1).1.hist =
        [Turn.mk Role.user [Part.text "go"], Turn.mk Role.model [Part.call ⟨"T", "a"⟩],
          Turn.mk Role.user [Part.text "res"]] ∧
      (stepRun (some (fun _ => "res")) [] (some "go") cexBackendC1).1.hist ≠ [] := by
  refine ⟨rfl, by decide, by decide⟩

/-- Helper: when the initial stream yields no function-call fragment, the
main chunk loop only buffers text: history and flags are untouched. -/
theorem runMainChunks_noCall (cbOpt : Option (FCall → String)) :
    ∀ (cs : List Chunk) (st : StepSt), (∀ c ∈ cs, chunkNoCall c = true) →
      (runMainChunks cbOpt st cs).1.hist = st.hist ∧
        (runMainChunks cbOpt st cs).2 = false := by
  intro cs
  induction cs with
  | nil => intro st _; exact ⟨rfl, rfl⟩
  | cons c rest ih =>
    intro st h
    cases c with
    | calls fcs =>
      have hc : fcs.isEmpty = true := h (Chunk.calls fcs) (List.mem_cons_self ..)
      simp only [runMainChunks, hc, if_true]
      exact ih st fun c hc' => h c (List.mem_cons_of_mem _ hc')
    | text s =>
      simp only [runMainChunks]
      obtain ⟨h1, h2⟩ := ih (bufText st s)
        fun c hc' => h c (List.mem_cons_of_mem _ hc')
      exact ⟨by rw [h1]; exact (bufText_fields st s).1, h2⟩

/-- C1 (amended): the rollback is exact precisely for a failure of the
initial exchange.  When the first backend response raises without yielding
any function-call fragment, the triggering user turn is still the most
recent turn, the handler pops exactly it, and the conversation state is
restored to exactly its pre-step value while the failure is reported. -/
theorem step_rollback_exact_on_initial_failure (cbOpt : Option (FCall → String))
    (hist0 : List Turn) (intr : Option String) (backend : List Resp)
    (h : ∀ r ∈ backend.take 1, respFailsNoCall r = true) :
    (stepRun cbOpt hist0 intr backend).1.hist = hist0 ∧
      (stepRun cbOpt hist0 intr backend).2 = true := by
  cases backend with
  | nil =>
    have e : stepRun cbOpt hist0 intr [] =
        stepFinish
          ⟨hist0 ++ [Turn.mk Role.user [Part.text (effectiveMsg intr)]], [], [],
            [Ev.acquire, Ev.request]⟩ true (effectiveMsg intr) := rfl
    rw [e]
    exact ⟨by rw [stepFinish_true_hist]; exact popIfMatch_concat .., stepFinish_snd ..⟩
  | cons r rs =>
    have hr : respFailsNoCall r = true := h r (by simp)
    simp only [respFailsNoCall, Bool.and_eq_true, List.all_eq_true] at hr
    obtain ⟨hfails, hchunks⟩ := hr
    have e : stepRun cbOpt hist0 intr (r :: rs) =
        stepFinish
          (runMainChunks cbOpt
            ⟨hist0 ++ [Turn.mk Role.user [Part.text (effectiveMsg intr)]], [], rs,
              [Ev.acquire, Ev.request]⟩ r.chunks).1
          ((runMainChunks cbOpt
            ⟨hist0 ++ [Turn.mk Role.user [Part.text (effectiveMsg intr)]], [], rs,
              [Ev.acquire, Ev.request]⟩ r.chunks).2 || r.fails)
          (effectiveMsg intr) := rfl
    obtain ⟨h1, h2⟩ := runMainChunks_noCall cbOpt r.chunks
      ⟨hist0 ++ [Turn.mk Role.user [Part.text (effectiveMsg intr)]], [], rs,
        [Ev.acquire, Ev.request]⟩ hchunks
    rw [e, h2, hfails]
    simp only [Bool.false_or]
    refine ⟨?_, stepFinish_snd ..⟩
    rw [stepFinish_true_hist, h1]
    exact popIfMatch_concat ..

/-- Witness for the amended C1 at a concrete failing first response. -/
theorem step_rollback_exact_on_initial_failure_witness :
    (∀ r ∈ ([⟨[Chunk.text "partial"], true⟩] : List Resp).take 1, respFailsNoCall r = true) ∧
      (stepRun none [] none [⟨[Chunk.text "partial"], true⟩]).1.hist = [] ∧
      (stepRun none [] none [⟨[Chunk.text "partial"], true⟩]).2 = true := by
  refine ⟨by decide, ?_⟩
  exact step_rollback_exact_on_initial_failure none [] none
    [⟨[Chunk.text "partial"], true⟩] (by decide)

/-- C2 counterexample: with a three-level chain scripted, the third-level
response yields the invocation `f3`, yet the step executes no such tool,
appends no turn for it, and issues no fourth exchange (exactly three
requests occur) — refuting uniform unbounded chaining. -/
theorem chaining_not_uniform_cex :
    (cexBackendC2.drop 2).head? = some ⟨[Chunk.calls [⟨"f3", "c"⟩]], false⟩ ∧
      Ev.execTool ⟨"f3", "c"⟩ ∉ (stepRun (some (fun _ => "r")) [] none cexBackendC2).1.trace ∧
      (stepRun (some (fun _ => "r")) [] none cexBackendC2).1.trace.countP
        (fun e => decide (e = Ev.request)) = 3 ∧
      Turn.mk Role.model [Part.call ⟨"f3", "c"⟩] ∉
        (stepRun (some (fun _ => "r")) [] none cexBackendC2).1.hist := by
  refine ⟨rfl, by decide, by decide, by decide⟩

/-- C2 (amended): chaining is depth-limited rather than uniform.  A
second-level invocation is still executed in full — its call turn and
result turn are appended and exactly one further exchange is issued — but
the third-level exchange only buffers text: it appends no turn, executes
no tool, and issues no further exchange beyond itself. -/
theorem chaining_depth_limited (cb : FCall → String) (st : StepSt) (fc : FCall) :
    ((handleFC2 cb st fc).1.hist =
        st.hist ++ [Turn.mk Role.model [Part.call fc],
          Turn.mk Role.user [Part.text (cb fc)]] ∧
      (handleFC2 cb st fc).1.trace =
        st.trace ++ [Ev.execTool fc, Ev.acquire, Ev.request]) ∧
    ((runFinal st).1.hist = st.hist ∧
      (runFinal st).1.trace = st.trace ++ [Ev.acquire, Ev.request]) :=
  ⟨handleFC2_fields cb st fc, runFinal_fields st⟩

/-- C8: a raising tool execution is converted by `_call_tool` into an
error-describing string; the step appends exactly the model call turn and
the user-role tool-result turn for that invocation and then proceeds to
the follow-up exchange as on any other result, and the follow-up only ever
extends the history. -/
theorem tool_error_two_turns (comps : String → Option Component) (c : Component)
    (e : String) (st : StepSt) (fc : FCall)
    (hc : comps fc.name = some c) (he : c.useFn fc.args = Except.error e) :
    ToolErrorConcl comps e st fc := by
  have h1 : callTool comps fc = "Error executing tool '" ++ fc.name ++ "': " ++ e := by
    simp only [callTool, hc, he]
  refine ⟨h1, ?_, ?_⟩
  · unfold handleFC1
    simp [h1]
  · intro st'
    obtain ⟨⟨app, happ, _⟩, _⟩ := runFollowUp_stepOk (some (callTool comps)) st'
    exact ⟨app, happ.symm⟩

/-- Witness for C8 at a concrete raising component. -/
theorem tool_error_two_turns_witness :
    witComps "T" = some witComp ∧ witComp.useFn "x" = Except.error "boom" ∧
      ToolErrorConcl witComps "boom" ⟨[], [], [], []⟩ ⟨"T", "x"⟩ :=
  ⟨rfl, rfl, tool_error_two_turns witComps witComp "boom" ⟨[], [], [], []⟩
    ⟨"T", "x"⟩ rfl rfl⟩

/-! ## Theorems about the rate limiter -/

/-- Helper: on a sorted deque, the prefix purge drops exactly the expired
timestamps. -/
theorem dropWhile_le_eq_filter (c : ℚ) :
    ∀ l : List ℚ, l.Pairwise (· ≤ ·) →
      l.dropWhile (fun t => decide (t ≤ c)) = l.filter fun t => decide (c < t) := by
  intro l
  induction l with
  | nil => intro _; rfl
  | cons a l ih =>
    intro hp
    obtain ⟨ha, hl⟩ := List.pairwise_cons.mp hp
    by_cases hac : a ≤ c
    · rw [List.dropWhile_cons, if_pos (by simpa using hac), List.filter_cons,
        if_neg (by simpa using not_lt.mpr hac)]
      exact ih hl
    · rw [List.dropWhile_cons, if_neg (by simpa using hac), List.filter_cons,
        if_pos (by simpa using lt_of_not_ge hac)]
      congr 1
      refine (List.filter_eq_self.mpr fun b hb => ?_).symm
      simpa using lt_of_lt_of_le (lt_of_not_ge hac) (ha b hb)

/-- Helper: `purgeRL` on a sorted deque is a filter. -/
theorem purgeRL_eq_filter (now : ℚ) (l : List ℚ) (h : l.Pairwise (· ≤ ·)) :
    purgeRL now l = l.filter fun t => decide (now - 60 < t) :=
  dropWhile_le_eq_filter (now - 60) l h

/-- Helper: one acquisition preserves the limiter invariant, and its
admission time never precedes the call time. -/
theorem apply_rate_limit_step (lim : ℕ) (hlim : 0 < lim) (A s : List ℚ) (t now : ℚ)
    (hinv : RLInv lim A s t) (hnow : t ≤ now) :
    now ≤ (apply_rate_limit lim now s).2 ∧
      RLInv lim (A ++ [(apply_rate_limit lim now s).2])
        (apply_rate_limit lim now s).1 (apply_rate_limit lim now s).2 := by
  obtain ⟨hsort, hle, hcard, hfil, hcnt⟩ := hinv
  have hs1sorted : (purgeRL now s).Pairwise (· ≤ ·) := by
    rw [purgeRL_eq_filter now s hsort]
    exact hsort.filter _
  have hs1 : purgeRL now s = A.filter fun x => decide (now - 60 < x) := by
    rw [purgeRL_eq_filter now s hsort, hfil, List.filter_filter]
    refine List.filter_congr fun a _ => ?_
    by_cases hx : now - 60 < a
    · have hx' : t - 60 < a := by linarith
      simp [hx, hx']
    · simp [hx]
  have hmemle : ∀ x ∈ purgeRL now s, x ≤ t := fun x hx =>
    hle x ((List.dropWhile_sublist _).subset hx)
  by_cases hlen : lim ≤ (purgeRL now s).length
  · -- ceiling reached: wait until the oldest timestamp leaves the window
    have hne : purgeRL now s ≠ [] := by
      intro h0
      rw [h0] at hlen
      simp at hlen
      omega
    obtain ⟨h, tl, hc⟩ : ∃ h tl, purgeRL now s = h :: tl := by
      cases hq : purgeRL now s with
      | nil => exact absurd hq hne
      | cons h tl => exact ⟨h, tl, rfl⟩
    have hhead : (purgeRL now s).headD 0 = h := by rw [hc]; rfl
    have hmem : h ∈ purgeRL now s := by rw [hc]; exact List.mem_cons_self ..
    have hh60 : now - 60 < h := by
      have := List.of_mem_filter ((purgeRL_eq_filter now s hsort) ▸ hmem)
      simpa using this
    have hwpos : 0 < (purgeRL now s).headD 0 + 60 - now := by
      rw [hhead]
      linarith
    have he : apply_rate_limit lim now s =
        (purgeRL (now + ((purgeRL now s).headD 0 + 60 - now)) (purgeRL now s) ++
            [now + ((purgeRL now s).headD 0 + 60 - now)],
          now + ((purgeRL now s).headD 0 + 60 - now)) := by
      unfold apply_rate_limit
      rw [if_pos hlen, if_pos hwpos]
    have ha : now + ((purgeRL now s).headD 0 + 60 - now) = h + 60 := by
      rw [hhead]
      ring
    rw [he, ha]
    dsimp only
    have hs2 : purgeRL (h + 60) (purgeRL now s) =
        (purgeRL now s).filter fun x => decide (h < x) := by
      rw [purgeRL_eq_filter (h + 60) _ hs1sorted]
      have e : h + 60 - 60 = h := by ring
      simp only [e]
    have hs2A : purgeRL (h + 60) (purgeRL now s) = A.filter fun x => decide (h < x) := by
      rw [hs2, hs1, List.filter_filter]
      refine List.filter_congr fun a _ => ?_
      by_cases hx : h < a
      · have hx' : now - 60 < a := by linarith
        simp [hx, hx']
      · simp [hx]
    have hs2len : (purgeRL (h + 60) (purgeRL now s)).length + 1 ≤ lim := by
      have h1 : (purgeRL (h + 60) (purgeRL now s)).length ≤ tl.length := by
        rw [hs2, hc, List.filter_cons, if_neg (by simp)]
        exact tl.length_filter_le _
      have h2 : (purgeRL now s).length ≤ s.length := (List.dropWhile_sublist _).length_le
      have h3 : tl.length + 1 = (purgeRL now s).length := by rw [hc]; rfl
      omega
    refine ⟨by linarith, ?_, ?_, ?_, ?_, ?_⟩
    · -- sorted
      apply List.pairwise_append.mpr
      refine ⟨by rw [hs2]; exact hs1sorted.filter _, by simp, ?_⟩
      intro x hx y hy
      simp only [List.mem_singleton] at hy
      subst hy
      have hxs : x ∈ purgeRL now s := by
        rw [hs2] at hx
        exact List.mem_of_mem_filter hx
      have := hmemle x hxs
      linarith
    · -- bounded by the admission time
      intro x hx
      rcases List.mem_append.mp hx with hx | hx
      · have hxs : x ∈ purgeRL now s := by
          rw [hs2] at hx
          exact List.mem_of_mem_filter hx
        have := hmemle x hxs
        linarith
      · simp only [List.mem_singleton] at hx
        subst hx
        exact le_refl _
    · -- cardinality
      rw [List.length_append]
      simpa using hs2len
    · -- deque equals the window filter of the admissions
      have e : h + 60 - 60 = h := by ring
      have hsing : List.filter (fun x => decide (h + 60 - 60 < x)) [h + 60] = [h + 60] := by
        have hlt : h + 60 - 60 < h + 60 := by linarith
        simp [hlt]
      rw [List.filter_append, hsing]
      rw [show (fun x => decide (h + 60 - 60 < x)) = fun x => decide (h < x) by
        simp only [e]]
      rw [hs2A]
    · -- window counts stay bounded
      intro u
      rw [List.countP_append]
      by_cases hwin : inWindow u (h + 60) = true
      · have hc1 : List.countP (inWindow u) [h + 60] = 1 := by
          simp [List.countP_cons, hwin]
        rw [hc1]
        have hmono : A.countP (inWindow u) ≤ A.countP fun x => decide (h < x) := by
          refine List.countP_mono_left fun x _ hx => ?_
          have hux : u < x ∧ x ≤ u + 60 := by simpa [inWindow] using hx
          have hun : u < h + 60 ∧ h + 60 ≤ u + 60 := by simpa [inWindow] using hwin
          have : h < x := by linarith [hux.1, hun.2]
          simpa using this
        have hlenf : (A.countP fun x => decide (h < x)) + 1 ≤ lim := by
          rw [List.countP_eq_length_filter, ← hs2A]
          exact hs2len
        omega
      · have hc0 : List.countP (inWindow u) [h + 60] = 0 := by
          simp [List.countP_cons, hwin]
        rw [hc0]
        simpa using hcnt u
  · -- below the ceiling: admit immediately
    have he : apply_rate_limit lim now s = (purgeRL now s ++ [now], now) := by
      unfold apply_rate_limit
      rw [if_neg hlen]
    rw [he]
    dsimp only
    refine ⟨le_refl now, ?_, ?_, ?_, ?_, ?_⟩
    · apply List.pairwise_append.mpr
      refine ⟨hs1sorted, by simp, ?_⟩
      intro x hx y hy
      simp only [List.mem_singleton] at hy
      subst hy
      exact le_trans (hmemle x hx) hnow
    · intro x hx
      rcases List.mem_append.mp hx with hx | hx
      · exact le_trans (hmemle x hx) hnow
      · simp only [List.mem_singleton] at hx
        subst hx
        exact le_refl _
    · rw [List.length_append]
      have : (purgeRL now s).length < lim := Nat.lt_of_not_le hlen
      simpa using this
    · have hsing : List.filter (fun x => decide (now - 60 < x)) [now] = [now] := by
        have hlt : now - 60 < now := by linarith
        simp [hlt]
      rw [List.filter_append, hsing, hs1]
    · intro u
      rw [List.countP_append]
      by_cases hwin : inWindow u now = true
      · have hc1 : List.countP (inWindow u) [now] = 1 := by
          simp [List.countP_cons, hwin]
        rw [hc1]
        have hmono : A.countP (inWindow u) ≤ A.countP fun x => decide (now - 60 < x) := by
          refine List.countP_mono_left fun x _ hx => ?_
          have hux : u < x ∧ x ≤ u + 60 := by simpa [inWindow] using hx
          have hun : u < now ∧ now ≤ u + 60 := by simpa [inWindow] using hwin
          have : now - 60 < x := by linarith [hux.1, hun.2]
          simpa using this
        have hlenf : (A.countP fun x => decide (now - 60 < x)) < lim := by
          rw [List.countP_eq_length_filter, ← hs1]
          exact Nat.lt_of_not_le hlen
        omega
      · have hc0 : List.countP (inWindow u) [now] = 0 := by
          simp [List.countP_cons, hwin]
        rw [hc0]
        simpa using hcnt u

/-- Helper: across a whole run, the admissions respect every rolling
window bound. -/
theorem runRL_inv (lim : ℕ) (hlim : 0 < lim) :
    ∀ (ds : List ℚ) (s : List ℚ) (t : ℚ) (A : List ℚ),
      (∀ d ∈ ds, 0 ≤ d) → RLInv lim A s t →
      ∀ u, (A ++ runRL lim s t ds).countP (inWindow u) ≤ lim := by
  intro ds
  induction ds with
  | nil =>
    intro s t A _ hinv u
    simpa using hinv.counts u
  | cons d ds ih =>
    intro s t A hds hinv u
    have hd : 0 ≤ d := hds d (List.mem_cons_self ..)
    have hstep := apply_rate_limit_step lim hlim A s t (t + d) hinv (by linarith)
    have hrec := ih (apply_rate_limit lim (t + d) s).1 (apply_rate_limit lim (t + d) s).2
      (A ++ [(apply_rate_limit lim (t + d) s).2])
      (fun d' hd' => hds d' (List.mem_cons_of_mem _ hd')) hstep.2 u
    rw [runRL]
    have hre : A ++ ((apply_rate_limit lim (t + d) s).2 ::
        runRL lim (apply_rate_limit lim (t + d) s).1 (apply_rate_limit lim (t + d) s).2 ds) =
        (A ++ [(apply_rate_limit lim (t + d) s).2]) ++
          runRL lim (apply_rate_limit lim (t + d) s).1 (apply_rate_limit lim (t + d) s).2 ds := by
      simp
    rw [hre]
    exact hrec

/-- Helper: the purge is the identity on a deque of fresh timestamps. -/
theorem dropWhile_replicate_neg (p : ℚ → Bool) (k : ℕ) (a : ℚ) (h : p a = false) :
    (List.replicate k a).dropWhile p = List.replicate k a := by
  cases k with
  | zero => rfl
  | succ k =>
    rw [List.replicate_succ, List.dropWhile_cons, h]
    rw [if_neg (by simp)]

/-- Helper: the purge empties a deque of expired timestamps. -/
theorem dropWhile_replicate_pos (p : ℚ → Bool) (k : ℕ) (a : ℚ) (h : p a = true) :
    (List.replicate k a).dropWhile p = [] := by
  induction k with
  | zero => rfl
  | succ k ih =>
    rw [List.replicate_succ, List.dropWhile_cons, h, if_pos rfl]
    exact ih

/-- Helper: `lim + 1` back-to-back calls — the first `lim` are admitted at
the call time, the last exactly 60 units after the first. -/
theorem runRL_replicate (lim : ℕ) (hlim : 0 < lim) (t0 : ℚ) :
    ∀ (m k : ℕ), k + m = lim + 1 → 1 ≤ m →
      runRL lim (List.replicate k t0) t0 (List.replicate m 0) =
        List.replicate (m - 1) t0 ++ [t0 + 60] := by
  intro m
  induction m with
  | zero =>
    intro k _ h1
    exact absurd h1 (by omega)
  | succ m ih =>
    intro k hk _
    rw [List.replicate_succ, runRL]
    by_cases hkl : k = lim
    · have hm : m = 0 := by omega
      subst hkl
      subst hm
      have hp1 : purgeRL (t0 + 0) (List.replicate k t0) = List.replicate k t0 := by
        unfold purgeRL
        exact dropWhile_replicate_neg _ _ _ (decide_eq_false (by linarith))
      have hlen : k ≤ (purgeRL (t0 + 0) (List.replicate k t0)).length := by
        rw [hp1]
        simp
      have hhd : (purgeRL (t0 + 0) (List.replicate k t0)).headD 0 = t0 := by
        rw [hp1]
        cases hq : k with
        | zero => omega
        | succ n => rw [List.replicate_succ]; rfl
      have hw : 0 < (purgeRL (t0 + 0) (List.replicate k t0)).headD 0 + 60 - (t0 + 0) := by
        rw [hhd]
        linarith
      have ha : (t0 + 0) + ((purgeRL (t0 + 0) (List.replicate k t0)).headD 0 + 60 - (t0 + 0)) =
          t0 + 60 := by
        rw [hhd]
        ring
      have hp2 : purgeRL (t0 + 60) (List.replicate k t0) = [] := by
        unfold purgeRL
        exact dropWhile_replicate_pos _ _ _ (decide_eq_true (by linarith))
      have he : apply_rate_limit k (t0 + 0) (List.replicate k t0) = ([t0 + 60], t0 + 60) := by
        unfold apply_rate_limit
        rw [if_pos hlen, if_pos hw, ha, hp1, hp2]
        rfl
      rw [he]
      rfl
    · have hklt : k < lim := by omega
      have hm1 : 1 ≤ m := by omega
      have hp1 : purgeRL (t0 + 0) (List.replicate k t0) = List.replicate k t0 := by
        unfold purgeRL
        exact dropWhile_replicate_neg _ _ _ (decide_eq_false (by linarith))
      have hlen : ¬ lim ≤ (purgeRL (t0 + 0) (List.replicate k t0)).length := by
        rw [hp1]
        simp
        omega
      have he : apply_rate_limit lim (t0 + 0) (List.replicate k t0) =
          (List.replicate k t0 ++ [t0 + 0], t0 + 0) := by
        unfold apply_rate_limit
        rw [if_neg hlen, hp1]
      rw [he]
      have hz : t0 + (0 : ℚ) = t0 := add_zero t0
      rw [hz]
      rw [show List.replicate k t0 ++ [t0] = List.replicate (k + 1) t0 from
        (List.replicate_succ' ..).symm]
      rw [ih (k + 1) (by omega) hm1]
      cases m with
      | zero => omega
      | succ m' => simp [List.replicate_succ]

/-- Helper: after any acquisition on a sorted deque, every retained
timestamp lies strictly inside the admission's 60-unit window: the purge
runs both before and, when a wait happened, after it. -/
theorem apply_rate_limit_purged (lim : ℕ) (now : ℚ) (s : List ℚ)
    (hs : s.Pairwise (· ≤ ·)) :
    ∀ x ∈ (apply_rate_limit lim now s).1, (apply_rate_limit lim now s).2 - 60 < x := by
  have hfil : purgeRL now s = s.filter fun x => decide (now - 60 < x) :=
    purgeRL_eq_filter now s hs
  have hs1sorted : (purgeRL now s).Pairwise (· ≤ ·) := by
    rw [hfil]
    exact hs.filter _
  have hbase : ∀ x ∈ purgeRL now s ++ [now], now - 60 < x := by
    intro x hx
    rcases List.mem_append.mp hx with hx | hx
    · have := List.of_mem_filter (hfil ▸ hx)
      simpa using this
    · simp only [List.mem_singleton] at hx
      subst hx
      linarith
  unfold apply_rate_limit
  by_cases hlen : lim ≤ (purgeRL now s).length
  · rw [if_pos hlen]
    by_cases hw : 0 < (purgeRL now s).headD 0 + 60 - now
    · rw [if_pos hw]
      intro x hx
      simp only at hx ⊢
      rcases List.mem_append.mp hx with hx | hx
      · have := List.of_mem_filter
          ((purgeRL_eq_filter (now + ((purgeRL now s).headD 0 + 60 - now)) _ hs1sorted) ▸ hx)
        simpa using this
      · simp only [List.mem_singleton] at hx
        subst hx
        linarith
    · rw [if_neg hw]
      intro x hx
      simp only at hx ⊢
      exact hbase x hx
  · rw [if_neg hlen]
    intro x hx
    simp only at hx ⊢
    exact hbase x hx

/-- C3: the sliding-window rate limiter.  For a positive ceiling: at most
`lim` admissions ever fall in any rolling 60-unit window `(u, u + 60]`
over any nonnegative-delay call sequence; `lim + 1` back-to-back calls
admit the first `lim` immediately and block the last until exactly 60
units after the first admission; and each acquisition leaves only
timestamps strictly within the admission's window (purging before and
after any wait). -/
theorem rate_limiter_claim (lim : ℕ) (hlim : 0 < lim) : RateLimiterClaim lim := by
  refine ⟨?_, ?_, ?_⟩
  · intro t0 ds hds u
    have hinv : RLInv lim [] [] t0 :=
      ⟨List.Pairwise.nil, by simp, by simp, rfl, fun u => by simp⟩
    simpa using runRL_inv lim hlim ds [] t0 [] hds hinv u
  · intro t0
    have := runRL_replicate lim hlim t0 (lim + 1) 0 (by omega) (by omega)
    simpa using this
  · exact apply_rate_limit_purged lim

/-- Witness for C3 at the configured ceiling `RPM_LIMIT = 15`. -/
theorem rate_limiter_claim_witness : 0 < 15 ∧ RateLimiterClaim 15 :=
  ⟨by decide, rate_limiter_claim 15 (by decide)⟩

end CompAgent
